import Mathlib

/-!
Verification of the Liveblocks room-collaboration engine specification.

The repository ships the React binding layer (`packages/liveblocks-react/src/factory.tsx`)
together with package metadata and the CHANGELOG; the `@liveblocks/client` core
(Storage CRDT, Batch Controller, History Manager, Presence Channel) is referenced
by that layer but its implementation is not part of the source tree here.  Where a
claim is decided by that missing core, the definitions below are modelled from the
specification text (each such definition says so in its doc comment); definitions
for the React layer are translated directly from `factory.tsx`.
-/

namespace Crdt

/-- Modelled from the spec: JSON-like scalar payload of a Storage `Value`
(spec section 3: null, bool, number, string).  Containers are not needed by the
claims settled against this model. -/
inductive Value where
  | nullV : Value
  | boolV : Bool → Value
  | numV : Int → Value
  | strV : String → Value
deriving DecidableEq, Repr

/-- Modelled from the spec: an `OperationId` is the pair `(actorId, seq)` of a
per-actor strictly increasing counter and the server-assigned actor id
(spec section 3, LogicalClock). -/
structure OpId where
  seq : Nat
  actor : Nat
deriving DecidableEq, Repr

/-- Modelled from the spec: the last-writer-wins comparison on `OperationId`s —
"higher logical clock wins; ties break on higher actorId" (spec section 4.1).
`OpId.wins n o` holds when a write stamped `n` overwrites a value stamped `o`. -/
def OpId.wins (n o : OpId) : Bool :=
  o.seq < n.seq || (o.seq == n.seq && o.actor < n.actor)

/-- Modelled from the spec: stable position key of a list element, a fractional
key built from actor-tagged digits (spec section 4.1), ordered lexicographically. -/
abbrev Pos := List (Nat × Nat)

/-- Modelled from the spec: the location a Storage operation targets — either a
string key of an Object/Map node, or a position key of a List node
(spec sections 3 and 4.1). -/
inductive Cell where
  | objC : Nat → String → Cell
  | lstC : Nat → Pos → Cell
deriving DecidableEq, Repr

/-- Modelled from the spec: the Storage `Operation` variants relevant to
conflict resolution (spec section 3): `SetKey`, `DeleteKey`, `ListInsert`,
`ListDelete`, `ListSet`, each carrying a target, an `OperationId`, and a payload. -/
inductive Operation where
  | setKey : Nat → String → OpId → Value → Operation
  | deleteKey : Nat → String → OpId → Operation
  | listInsert : Nat → Pos → OpId → Value → Operation
  | listDelete : Nat → Pos → OpId → Operation
  | listSet : Nat → Pos → OpId → Value → Operation
deriving DecidableEq, Repr

/-- The cell an operation targets. -/
def Operation.cell : Operation → Cell
  | .setKey n k _ _ => .objC n k
  | .deleteKey n k _ => .objC n k
  | .listInsert n p _ _ => .lstC n p
  | .listDelete n p _ => .lstC n p
  | .listSet n p _ _ => .lstC n p

/-- The `OperationId` stamped on an operation. -/
def Operation.opId : Operation → OpId
  | .setKey _ _ i _ => i
  | .deleteKey _ _ i => i
  | .listInsert _ _ i _ => i
  | .listDelete _ _ i => i
  | .listSet _ _ i _ => i

/-- Modelled from the spec: the value an operation writes into its target cell.
`DeleteKey` and `ListDelete` write the tombstone (`none`): the spec prescribes
that "a DeleteKey is treated as a SetKey to a tombstone value for comparison
purposes" and that `ListDelete` is idempotent (spec section 4.1). -/
def Operation.write : Operation → Option Value
  | .setKey _ _ _ v => some v
  | .deleteKey _ _ _ => none
  | .listInsert _ _ _ v => some v
  | .listDelete _ _ _ => none
  | .listSet _ _ _ v => some v

/-- A per-cell register: the winning `OperationId` together with the value it
wrote (`none` encodes the tombstone left by a delete). -/
abbrev Reg := OpId × Option Value

/-- Modelled from the spec: the materialized Storage state, one last-writer-wins
register per cell (spec section 4.1). -/
def Storage := Cell → Option Reg

/-- The empty Storage: no cell has ever been written. -/
def Storage.empty : Storage := fun _ => none

/-- Modelled from the spec: last-writer-wins register update — a write lands iff
the cell is fresh or the incoming `OperationId` wins the comparison of
spec section 4.1. -/
def writeReg (r : Option Reg) (i : OpId) (w : Option Value) : Option Reg :=
  match r with
  | none => some (i, w)
  | some (j, u) => if OpId.wins i j then some (i, w) else some (j, u)

/-- Modelled from the spec: applying one Storage operation resolves it against
the register of its target cell; all other cells are untouched (spec section 4.1). -/
def Storage.apply (st : Storage) (op : Operation) : Storage :=
  fun c => if c = op.cell then writeReg (st op.cell) op.opId op.write else st c

/-- Applying a list of operations in arrival order. -/
def Storage.applyOps (st : Storage) (ops : List Operation) : Storage :=
  ops.foldl Storage.apply st

theorem OpId.wins_true_iff (i j : OpId) :
    OpId.wins i j = true ↔ j.seq < i.seq ∨ (j.seq = i.seq ∧ j.actor < i.actor) := by
  simp [OpId.wins]

theorem OpId.wins_false_iff (i j : OpId) :
    OpId.wins i j = false ↔ ¬(j.seq < i.seq ∨ (j.seq = i.seq ∧ j.actor < i.actor)) := by
  rw [← OpId.wins_true_iff]
  cases OpId.wins i j <;> simp

theorem writeReg_comm (r : Option Reg) (i j : OpId) (u w : Option Value)
    (hne : i ≠ j) :
    writeReg (writeReg r i u) j w = writeReg (writeReg r j w) i u := by
  have hne' : i.seq ≠ j.seq ∨ i.actor ≠ j.actor := by
    by_contra hc
    push_neg at hc
    rcases i with ⟨is, ia⟩
    rcases j with ⟨js, ja⟩
    exact hne (by simp_all)
  rcases r with _ | ⟨k, v⟩
  · cases hw : OpId.wins j i
    · have hw2 : OpId.wins i j = true := by
        rw [OpId.wins_true_iff]
        rw [OpId.wins_false_iff] at hw
        omega
      simp [writeReg, hw, hw2]
    · have hw2 : OpId.wins i j = false := by
        rw [OpId.wins_false_iff]
        rw [OpId.wins_true_iff] at hw
        omega
      simp [writeReg, hw, hw2]
  · cases h1 : OpId.wins i k <;> cases h2 : OpId.wins j k
    · simp [writeReg, h1, h2]
    · have h3 : OpId.wins i j = false := by
        rw [OpId.wins_false_iff]
        rw [OpId.wins_false_iff] at h1
        rw [OpId.wins_true_iff] at h2
        omega
      simp [writeReg, h1, h2, h3]
    · have h3 : OpId.wins j i = false := by
        rw [OpId.wins_false_iff]
        rw [OpId.wins_true_iff] at h1
        rw [OpId.wins_false_iff] at h2
        omega
      simp [writeReg, h1, h2, h3]
    · cases hw : OpId.wins j i
      · have hw2 : OpId.wins i j = true := by
          rw [OpId.wins_true_iff]
          rw [OpId.wins_false_iff] at hw
          omega
        simp [writeReg, h1, h2, hw, hw2]
      · have hw2 : OpId.wins i j = false := by
          rw [OpId.wins_false_iff]
          rw [OpId.wins_true_iff] at hw
          omega
        simp [writeReg, h1, h2, hw, hw2]

theorem Storage.apply_comm (st : Storage) (o1 o2 : Operation)
    (hne : o1.opId ≠ o2.opId) :
    (st.apply o1).apply o2 = (st.apply o2).apply o1 := by
  funext c
  simp only [Storage.apply]
  by_cases h12 : o1.cell = o2.cell
  · rw [h12]
    by_cases hc : c = o2.cell
    · simp only [hc, if_pos rfl]
      exact writeReg_comm _ _ _ _ _ hne
    · simp [hc]
  · by_cases hc1 : c = o1.cell <;> by_cases hc2 : c = o2.cell
    · exact absurd (hc1.symm.trans hc2) h12
    · simp [hc1, hc2, h12]
    · have h21 : ¬ o2.cell = o1.cell := fun h => h12 h.symm
      simp [hc1, hc2, h21]
    · simp [hc1, hc2]

/-- C1: convergence — for any finite set of Storage operations (given as a list
with pairwise distinct `OperationId`s, per the spec's uniqueness invariant) and
any two arrival orders of that same set, the materialized Storage value after
applying all operations is identical: the materialized value is a pure function
of the set of operations, independent of arrival order (spec sections 3 and 8). -/
theorem storage_convergence (st : Storage) (ops1 ops2 : List Operation)
    (hperm : ops1.Perm ops2)
    (hids : ∀ o1 ∈ ops1, ∀ o2 ∈ ops1, o1 ≠ o2 → o1.opId ≠ o2.opId) :
    st.applyOps ops1 = st.applyOps ops2 := by
  unfold Storage.applyOps
  refine hperm.foldl_eq' ?_ st
  intro x hx y hy z
  by_cases hxy : x = y
  · rw [hxy]
  · exact Storage.apply_comm z x y (hids x hx y hy hxy)

/-- Witness for C1: two concurrent writes to the same object key, delivered in
the two opposite orders, materialize to the same Storage value. -/
theorem storage_convergence_witness :
    Storage.empty.applyOps
        [Operation.setKey 0 "a" ⟨1, 1⟩ (Value.numV 3),
         Operation.setKey 0 "a" ⟨1, 2⟩ (Value.numV 7)] =
      Storage.empty.applyOps
        [Operation.setKey 0 "a" ⟨1, 2⟩ (Value.numV 7),
         Operation.setKey 0 "a" ⟨1, 1⟩ (Value.numV 3)] :=
  storage_convergence Storage.empty _ _ (by decide) (by decide)

/-- Modelled from the spec: ordering of actor-tagged digits — a digit compares
by its numeric value first, then by the actor id tag (spec section 4.1). -/
def pairLtB (x y : Nat × Nat) : Bool :=
  x.1 < y.1 || (x.1 == y.1 && x.2 < y.2)

/-- Modelled from the spec: lexicographic order on fractional position keys;
a proper prefix sorts before its extensions, matching fractional keys where
appending digits moves a position slightly to the right of the prefix. -/
def posLt : Pos → Pos → Bool
  | [], [] => false
  | [], _ :: _ => true
  | _ :: _, [] => false
  | x :: xs, y :: ys => pairLtB x y || (x == y && posLt xs ys)

/-- A well-formed position: nonempty and its final digit is at least 1 (the
generator below only ever emits such positions; the reserve digit 0 keeps the
key space dense). -/
def posValid : Pos → Bool
  | [] => false
  | [d] => decide (1 ≤ d.1)
  | _ :: d :: t => posValid (d :: t)

/-- Digit-path part of position generation: walk the upper bound, branching
just below it as soon as the bounds disagree.  The caller appends the
actor-tagged suffix digit. -/
def posCoreB : Pos → Pos → Pos
  | _, [] => []
  | [], q :: u =>
      if q.1 = 0 then
        (if q.2 = 0 then (0, 0) :: posCoreB [] u else [(0, q.2 - 1)])
      else [(q.1 - 1, q.2)]
  | p :: t, q :: u => if p = q then p :: posCoreB t u else p :: t

/-- Modelled from the spec: `ListInsert`'s position computation — a fractional
key strictly between `afterPosition` and the next existing position (`none`
when inserting at the tail), biased by `(seq, actorId)` through the final
actor-tagged digit so that concurrent inserts at the same location get
distinct, deterministically ordered positions (spec section 4.1). -/
def mkPosition (afterPos : Pos) (nextPos : Option Pos) (seq actor : Nat) : Pos :=
  (match nextPos with
   | none => afterPos
   | some h => posCoreB afterPos h) ++ [(seq + 1, actor)]

theorem posLt_self_append (l : Pos) (x : Nat × Nat) (xs : Pos) :
    posLt l (l ++ x :: xs) = true := by
  induction l with
  | nil => rfl
  | cons c l ih => simp [posLt, pairLtB, ih]

theorem posLt_append_last (c : Pos) (u v : Nat × Nat) :
    posLt (c ++ [u]) (c ++ [v]) = pairLtB u v := by
  induction c with
  | nil => simp [posLt]
  | cons a c ih =>
    simp only [List.cons_append, posLt, List.append_eq]
    rw [ih]
    simp [pairLtB]

theorem posLt_nil_right (l : Pos) : posLt l [] = false := by
  cases l <;> rfl

theorem posCoreB_between (hi : Pos) : ∀ lo : Pos, posValid hi = true →
    posLt lo hi = true → ∀ s a : Nat,
    posLt lo (posCoreB lo hi ++ [(s + 1, a)]) = true ∧
    posLt (posCoreB lo hi ++ [(s + 1, a)]) hi = true := by
  induction hi with
  | nil =>
    intro lo hv hlt s a
    rw [posLt_nil_right] at hlt
    exact absurd hlt (by simp)
  | cons q u ih =>
    intro lo hv hlt s a
    cases lo with
    | nil =>
      rcases q with ⟨qa, qb⟩
      by_cases hqa : qa = 0
      · subst hqa
        by_cases hqb : qb = 0
        · subst hqb
          have hu : u ≠ [] := by
            cases u with
            | nil => simp [posValid] at hv
            | cons b u2 => simp
          have hvu : posValid u = true := by
            cases u with
            | nil => exact absurd rfl hu
            | cons b u2 => exact hv
          have hltu : posLt [] u = true := by
            cases u with
            | nil => exact absurd rfl hu
            | cons b u2 => rfl
          obtain ⟨h1, h2⟩ := ih [] hvu hltu s a
          constructor
          · simp [posCoreB, posLt]
          · simpa [posCoreB, posLt, pairLtB] using h2
        · constructor
          · simp [posCoreB, hqb, posLt]
          · simp [posCoreB, hqb, posLt, pairLtB]
            omega
      · constructor
        · simp [posCoreB, hqa, posLt]
        · simp [posCoreB, hqa, posLt, pairLtB]
          omega
    | cons p t =>
      by_cases hpq : p = q
      · subst hpq
        have hltu : posLt t u = true := by
          simp only [posLt, pairLtB, Bool.or_eq_true, Bool.and_eq_true,
            beq_iff_eq, decide_eq_true_eq] at hlt
          rcases hlt with h | h
          · omega
          · exact h.2
        have hu : u ≠ [] := by
          intro hnil
          rw [hnil, posLt_nil_right] at hltu
          exact absurd hltu (by simp)
        have hvu : posValid u = true := by
          cases u with
          | nil => exact absurd rfl hu
          | cons b u2 => exact hv
        obtain ⟨h1, h2⟩ := ih t hvu hltu s a
        constructor
        · simpa [posCoreB, posLt, pairLtB] using h1
        · simpa [posCoreB, posLt, pairLtB] using h2
      · have hpl : pairLtB p q = true := by
          simp only [posLt, Bool.or_eq_true, Bool.and_eq_true, beq_iff_eq] at hlt
          rcases hlt with h | h
          · exact h
          · exact absurd h.1 hpq
        constructor
        · have := posLt_self_append (p :: t) (s + 1, a) []
          simpa [posCoreB, hpq] using this
        · simp [posCoreB, hpq, posLt, hpl]

theorem mkPosition_between (lo hi : Pos) (s a : Nat)
    (hv : posValid hi = true) (hlt : posLt lo hi = true) :
    posLt lo (mkPosition lo (some hi) s a) = true ∧
    posLt (mkPosition lo (some hi) s a) hi = true :=
  posCoreB_between hi lo hv hlt s a

/-- Modelled from the spec: the operation issued by
`ListInsert(afterPosition, actorId, seq, value)` — it stamps the new element
with the freshly computed position and the `(seq, actorId)` operation id
(spec section 4.1). -/
def listInsertOp (node : Nat) (afterPos nextPos : Pos) (seq actor : Nat)
    (v : Value) : Operation :=
  .listInsert node (mkPosition afterPos (some nextPos) seq actor) ⟨seq, actor⟩ v

/-- C4: two distinct actors concurrently inserting after the same position `p`
(with next existing position `q`) are assigned distinct positions, both strictly
between `p` and `q`; both elements are present in the converged list under
either arrival order, neither overwrites the other, and their relative order is
a deterministic function of the `(seq, actorId)` pairs alone. -/
theorem concurrent_list_insert (node : Nat) (p q : Pos) (s1 a1 s2 a2 : Nat)
    (v1 v2 : Value) (st : Storage)
    (hv : posValid q = true) (hpq : posLt p q = true)
    (hne : (s1, a1) ≠ (s2, a2))
    (hf1 : st (Cell.lstC node (mkPosition p (some q) s1 a1)) = none)
    (hf2 : st (Cell.lstC node (mkPosition p (some q) s2 a2)) = none) :
    (posLt p (mkPosition p (some q) s1 a1) = true ∧
      posLt (mkPosition p (some q) s1 a1) q = true) ∧
    (posLt p (mkPosition p (some q) s2 a2) = true ∧
      posLt (mkPosition p (some q) s2 a2) q = true) ∧
    mkPosition p (some q) s1 a1 ≠ mkPosition p (some q) s2 a2 ∧
    posLt (mkPosition p (some q) s1 a1) (mkPosition p (some q) s2 a2)
      = pairLtB (s1 + 1, a1) (s2 + 1, a2) ∧
    (∀ res : Storage,
      (res = (st.apply (listInsertOp node p q s1 a1 v1)).apply
          (listInsertOp node p q s2 a2 v2) ∨
       res = (st.apply (listInsertOp node p q s2 a2 v2)).apply
          (listInsertOp node p q s1 a1 v1)) →
      res (Cell.lstC node (mkPosition p (some q) s1 a1))
          = some (⟨s1, a1⟩, some v1) ∧
      res (Cell.lstC node (mkPosition p (some q) s2 a2))
          = some (⟨s2, a2⟩, some v2)) := by
  have hx : mkPosition p (some q) s1 a1 ≠ mkPosition p (some q) s2 a2 := by
    intro heq
    unfold mkPosition at heq
    have h2 := List.append_cancel_left heq
    simp only [List.cons.injEq, and_true, Prod.mk.injEq] at h2
    have hs : s1 = s2 := by omega
    exact hne (by rw [hs, h2.2])
  refine ⟨mkPosition_between p q s1 a1 hv hpq,
          mkPosition_between p q s2 a2 hv hpq, hx, ?_, ?_⟩
  · exact posLt_append_last _ _ _
  · intro res hres
    have hc : Cell.lstC node (mkPosition p (some q) s1 a1) ≠
        Cell.lstC node (mkPosition p (some q) s2 a2) := by
      intro h
      injection h with h1 h2
      exact hx h2
    rcases hres with h | h <;> subst h <;> constructor <;>
      simp [Storage.apply, listInsertOp, Operation.cell, Operation.opId,
        Operation.write, hc, Ne.symm hc, hx, Ne.symm hx, writeReg, hf1, hf2]

/-- Witness for C4: actors 1 and 2 both insert after position `[(1,0)]` whose
next existing position is `[(2,0)]`, with sequence number 1 each. -/
theorem concurrent_list_insert_witness :
    (posLt [(1, 0)] (mkPosition [(1, 0)] (some [(2, 0)]) 1 1) = true ∧
      posLt (mkPosition [(1, 0)] (some [(2, 0)]) 1 1) [(2, 0)] = true) ∧
    (posLt [(1, 0)] (mkPosition [(1, 0)] (some [(2, 0)]) 1 2) = true ∧
      posLt (mkPosition [(1, 0)] (some [(2, 0)]) 1 2) [(2, 0)] = true) ∧
    mkPosition [(1, 0)] (some [(2, 0)]) 1 1 ≠ mkPosition [(1, 0)] (some [(2, 0)]) 1 2 ∧
    posLt (mkPosition [(1, 0)] (some [(2, 0)]) 1 1) (mkPosition [(1, 0)] (some [(2, 0)]) 1 2)
      = pairLtB (1 + 1, 1) (1 + 1, 2) ∧
    (∀ res : Storage,
      (res = (Storage.empty.apply (listInsertOp 7 [(1, 0)] [(2, 0)] 1 1 (Value.numV 10))).apply
          (listInsertOp 7 [(1, 0)] [(2, 0)] 1 2 (Value.numV 20)) ∨
       res = (Storage.empty.apply (listInsertOp 7 [(1, 0)] [(2, 0)] 1 2 (Value.numV 20))).apply
          (listInsertOp 7 [(1, 0)] [(2, 0)] 1 1 (Value.numV 10))) →
      res (Cell.lstC 7 (mkPosition [(1, 0)] (some [(2, 0)]) 1 1))
          = some (⟨1, 1⟩, some (Value.numV 10)) ∧
      res (Cell.lstC 7 (mkPosition [(1, 0)] (some [(2, 0)]) 1 2))
          = some (⟨1, 2⟩, some (Value.numV 20))) :=
  concurrent_list_insert 7 [(1, 0)] [(2, 0)] 1 1 1 2 (Value.numV 10) (Value.numV 20)
    Storage.empty (by decide) (by decide) (by decide) rfl rfl

/-- Position of the existing list element in the `ListSet` comparison scenario. -/
def lsPos : Pos := [(1, 0)]

/-- Fresh position computed for the re-insert performed by a stale client that
replaces `ListSet` with delete-then-insert. -/
def lsPosNew : Pos := mkPosition lsPos (some [(2, 0)]) 2 1

/-- Converged Storage when actor 1 uses `ListSet` at `lsPos` (value 5, opId
(1,1)) while actor 2 concurrently issues `ListSet` at the same position
(value 9, opId (2,2)). -/
def lsScenarioSet : Storage :=
  Storage.empty.applyOps
    [.listSet 0 lsPos ⟨1, 1⟩ (Value.numV 5), .listSet 0 lsPos ⟨2, 2⟩ (Value.numV 9)]

/-- Converged Storage when actor 1 instead expresses the same edit as
`ListDelete` at `lsPos` followed by `ListInsert` of the value at `lsPosNew`,
with the identical concurrent `ListSet` from actor 2. -/
def lsScenarioDelIns : Storage :=
  Storage.empty.applyOps
    [.listDelete 0 lsPos ⟨1, 1⟩, .listInsert 0 lsPosNew ⟨2, 1⟩ (Value.numV 5),
     .listSet 0 lsPos ⟨2, 2⟩ (Value.numV 9)]

/-- Object-key analogue of the concurrent-write half of the scenario: two
`SetKey` writes to the same key with the same operation ids. -/
def lsObjAnalogue : Storage :=
  Storage.empty.applyOps
    [.setKey 0 "k" ⟨1, 1⟩ (Value.numV 5), .setKey 0 "k" ⟨2, 2⟩ (Value.numV 9)]

/-- C7: `ListSet` resolves concurrent writes to the same position by the same
last-writer-wins rule as object keys (the higher `(seq, actorId)` writer wins,
under either arrival order, exactly as for `SetKey`), and `ListSet` is NOT
equivalent to delete-plus-insert: mixed with the same concurrent `ListSet`,
the delete-plus-insert encoding leaves an extra live element at the fresh
position `lsPosNew`, so the two converged lists diverge. -/
theorem listSet_not_delete_insert :
    lsScenarioSet (Cell.lstC 0 lsPos) = some (⟨2, 2⟩, some (Value.numV 9)) ∧
    Storage.empty.applyOps
        [.listSet 0 lsPos ⟨2, 2⟩ (Value.numV 9), .listSet 0 lsPos ⟨1, 1⟩ (Value.numV 5)]
        (Cell.lstC 0 lsPos) = some (⟨2, 2⟩, some (Value.numV 9)) ∧
    lsObjAnalogue (Cell.objC 0 "k") = some (⟨2, 2⟩, some (Value.numV 9)) ∧
    lsScenarioDelIns (Cell.lstC 0 lsPos) = some (⟨2, 2⟩, some (Value.numV 9)) ∧
    lsScenarioSet (Cell.lstC 0 lsPosNew) = none ∧
    lsScenarioDelIns (Cell.lstC 0 lsPosNew) = some (⟨2, 1⟩, some (Value.numV 5)) := by
  refine ⟨?_, ?_, ?_, ?_, ?_, ?_⟩ <;> decide

end Crdt

namespace Hist

/-- Modelled from the spec: the local materialized document on which the
History Manager operates — the value each Storage key currently materializes
to on this client (spec sections 3 and 4.3). -/
def St := String → Option Crdt.Value

/-- Modelled from the spec: one local write of a committed batch — a target
key together with the new materialized content (`none` means the key is
deleted); inverse operations stored in a HistoryItem have the same shape
(spec section 3, HistoryItem). -/
abbrev Wr := String × Option Crdt.Value

/-- Apply one local write. -/
def applyW (st : St) (w : Wr) : St :=
  fun k => if k = w.1 then w.2 else st k

/-- Apply the writes of a batch in issuance order. -/
def applyWs (st : St) (ws : List Wr) : St := ws.foldl applyW st

/-- Modelled from the spec: the inverse operations recorded for a committed
batch — for each write, in reverse order, a write restoring the content the
key had just before it (spec section 3, HistoryItem: "an ordered sequence of
inverse Operations ... produced atomically per committed batch"). -/
def invertWs (st : St) : List Wr → List Wr
  | [] => []
  | w :: rest => invertWs (applyW st w) rest ++ [(w.1, st w.1)]

theorem applyWs_cons (st : St) (w : Wr) (ws : List Wr) :
    applyWs st (w :: ws) = applyWs (applyW st w) ws := rfl

theorem applyWs_append (st : St) (l1 l2 : List Wr) :
    applyWs st (l1 ++ l2) = applyWs (applyWs st l1) l2 := by
  simp [applyWs, List.foldl_append]

theorem applyWs_invertWs (ws : List Wr) (st : St) :
    applyWs (applyWs st ws) (invertWs st ws) = st := by
  induction ws generalizing st with
  | nil => rfl
  | cons w rest ih =>
    rw [applyWs_cons, invertWs, applyWs_append, ih (applyW st w)]
    show applyW (applyW st w) (w.1, st w.1) = st
    funext k
    by_cases hk : k = w.1
    · simp [applyW, hk]
    · simp [applyW, hk]

/-- Modelled from the spec: the Room state seen by the History Manager — the
materialized document plus the undo and redo stacks of HistoryItems
(spec sections 3 and 4.3). -/
structure RoomH where
  st : St
  undos : List (List Wr)
  redos : List (List Wr)

/-- Modelled from the spec: committing a batch applies its writes, pushes the
batch's inverse operations as one HistoryItem onto the undo stack, and clears
the redo stack ("pushing to undo clears redo", spec section 3). -/
def commit (r : RoomH) (ws : List Wr) : RoomH :=
  { st := applyWs r.st ws, undos := invertWs r.st ws :: r.undos, redos := [] }

/-- Modelled from the spec: `undo()` pops the top undo HistoryItem, applies its
inverse operations as one atomic local batch, and pushes the item that redoes
the original batch onto the redo stack; a no-op on an empty stack
(spec section 4.3). -/
def undo (r : RoomH) : RoomH :=
  match r.undos with
  | [] => r
  | i :: rest =>
      { st := applyWs r.st i, undos := rest, redos := invertWs r.st i :: r.redos }

/-- Modelled from the spec: `redo()` is symmetric to `undo()` (spec section 4.3). -/
def redo (r : RoomH) : RoomH :=
  match r.redos with
  | [] => r
  | i :: rest =>
      { st := applyWs r.st i, redos := rest, undos := invertWs r.st i :: r.undos }

/-- Commit a sequence of batches. -/
def commits (r : RoomH) (bs : List (List Wr)) : RoomH := bs.foldl commit r

/-- Iterate `undo`. -/
def undoN (r : RoomH) : Nat → RoomH
  | 0 => r
  | k + 1 => undoN (undo r) k

/-- Iterate `redo`. -/
def redoN (r : RoomH) : Nat → RoomH
  | 0 => r
  | k + 1 => redoN (redo r) k

/-- The document reached by applying a sequence of batches. -/
def runBatches (s : St) (bs : List (List Wr)) : St := bs.foldl applyWs s

/-- A stack of HistoryItems is coherent with a list of earlier documents when
applying each item in turn walks exactly through those documents. -/
def StackOk : St → List (List Wr) → List St → Prop
  | _, [], [] => True
  | s, i :: is, p :: ps => applyWs s i = p ∧ StackOk p is ps
  | _, _, _ => False

/-- The documents that held before each committed batch, most recent first. -/
def pastHist (s : St) : List (List Wr) → List St
  | [] => []
  | b :: bs => pastHist (applyWs s b) bs ++ [s]

/-- All intermediate documents, oldest first: the list `s0, s1, ..., sN`. -/
def statesList (s : St) : List (List Wr) → List St
  | [] => [s]
  | b :: bs => s :: statesList (applyWs s b) bs

theorem StackOk_length : ∀ (us : List (List Wr)) (h : List St) (s : St),
    StackOk s us h → us.length = h.length := by
  intro us
  induction us with
  | nil =>
    intro h s hk
    cases h with
    | nil => rfl
    | cons a t => exact absurd hk (by simp [StackOk])
  | cons i is ih =>
    intro h s hk
    cases h with
    | nil => exact absurd hk (by simp [StackOk])
    | cons p ps =>
      simp only [List.length_cons, Nat.add_right_cancel_iff]
      exact ih ps p hk.2

theorem pastHist_length : ∀ (bs : List (List Wr)) (s : St),
    (pastHist s bs).length = bs.length := by
  intro bs
  induction bs with
  | nil => intro s; rfl
  | cons b bs ih => intro s; simp [pastHist, ih]

theorem statesList_length : ∀ (bs : List (List Wr)) (s : St),
    (statesList s bs).length = bs.length + 1 := by
  intro bs
  induction bs with
  | nil => intro s; rfl
  | cons b bs ih => intro s; simp [statesList, ih]

theorem statesList_getElem : ∀ (bs : List (List Wr)) (s : St) (m : Nat),
    m ≤ bs.length → (statesList s bs)[m]? = some (runBatches s (bs.take m)) := by
  intro bs
  induction bs with
  | nil =>
    intro s m hm
    have hm0 : m = 0 := Nat.le_zero.mp hm
    subst hm0
    rfl
  | cons b bs ih =>
    intro s m hm
    cases m with
    | zero => simp [statesList, runBatches]
    | succ m =>
      have h2 := ih (applyWs s b) m (Nat.succ_le_succ_iff.mp hm)
      simp only [statesList, List.getElem?_cons_succ]
      rw [h2]
      rfl

theorem rev_hist : ∀ (bs : List (List Wr)) (s : St),
    (runBatches s bs :: pastHist s bs).reverse = statesList s bs := by
  intro bs
  induction bs with
  | nil => intro s; rfl
  | cons b bs ih =>
    intro s
    show (runBatches (applyWs s b) bs :: (pastHist (applyWs s b) bs ++ [s])).reverse
        = s :: statesList (applyWs s b) bs
    rw [show (runBatches (applyWs s b) bs :: (pastHist (applyWs s b) bs ++ [s]))
          = (runBatches (applyWs s b) bs :: pastHist (applyWs s b) bs) ++ [s] from rfl,
        List.reverse_append, ih]
    rfl

theorem statesList_head : ∀ (bs : List (List Wr)) (s : St),
    s :: (statesList s bs).drop 1 = statesList s bs := by
  intro bs s
  cases bs <;> rfl

theorem commits_inv : ∀ (bs : List (List Wr)) (r : RoomH) (past : List St),
    StackOk r.st r.undos past → r.redos = [] →
    (commits r bs).st = runBatches r.st bs ∧
    StackOk (commits r bs).st (commits r bs).undos (pastHist r.st bs ++ past) ∧
    (commits r bs).redos = [] := by
  intro bs
  induction bs with
  | nil =>
    intro r past h hr
    exact ⟨rfl, h, hr⟩
  | cons b bs ih =>
    intro r past h hr
    have hstep : StackOk (commit r b).st (commit r b).undos (r.st :: past) :=
      ⟨applyWs_invertWs b r.st, h⟩
    obtain ⟨h1, h2, h3⟩ := ih (commit r b) (r.st :: past) hstep rfl
    refine ⟨h1, ?_, h3⟩
    have hpp : pastHist r.st (b :: bs) ++ past
        = pastHist (applyWs r.st b) bs ++ (r.st :: past) := by
      show (pastHist (applyWs r.st b) bs ++ [r.st]) ++ past = _
      rw [List.append_assoc]
      rfl
    rw [hpp]
    exact h2

theorem undoN_spec : ∀ (k : Nat) (s : St) (us rs : List (List Wr))
    (past fut : List St),
    StackOk s us past → StackOk s rs fut → k ≤ us.length →
    ((s :: past)[k]? = some ((undoN ⟨s, us, rs⟩ k).st)) ∧
    StackOk (undoN ⟨s, us, rs⟩ k).st (undoN ⟨s, us, rs⟩ k).undos (past.drop k) ∧
    StackOk (undoN ⟨s, us, rs⟩ k).st (undoN ⟨s, us, rs⟩ k).redos
      (((s :: past).take k).reverse ++ fut) := by
  intro k
  induction k with
  | zero =>
    intro s us rs past fut hu hr _
    exact ⟨by simp [undoN], hu, hr⟩
  | succ k ih =>
    intro s us rs past fut hu hr hk
    cases us with
    | nil => exact absurd hk (by simp)
    | cons i is =>
      cases past with
      | nil => exact absurd hu (by simp [StackOk])
      | cons p ps =>
        obtain ⟨hp, hrest⟩ := hu
        have hstep : undoN ⟨s, i :: is, rs⟩ (k + 1) = undoN ⟨p, is, invertWs s i :: rs⟩ k := by
          show undoN (undo ⟨s, i :: is, rs⟩) k = _
          rw [show undo ⟨s, i :: is, rs⟩
                = (⟨applyWs s i, is, invertWs s i :: rs⟩ : RoomH) from rfl, hp]
        have hredo : StackOk p (invertWs s i :: rs) (s :: fut) := by
          refine ⟨?_, hr⟩
          rw [← hp]
          exact applyWs_invertWs i s
        obtain ⟨h1, h2, h3⟩ := ih p is (invertWs s i :: rs) ps (s :: fut) hrest hredo
          (Nat.succ_le_succ_iff.mp hk)
        rw [hstep]
        refine ⟨?_, h2, ?_⟩
        · rw [List.getElem?_cons_succ]
          exact h1
        · have htake : ((s :: p :: ps).take (k + 1)).reverse ++ fut
              = ((p :: ps).take k).reverse ++ (s :: fut) := by
            simp [List.take_succ_cons, List.reverse_cons, List.append_assoc]
          rw [htake]
          exact h3

theorem redoN_spec : ∀ (k : Nat) (s : St) (us rs : List (List Wr))
    (past fut : List St),
    StackOk s us past → StackOk s rs fut → k ≤ rs.length →
    ((s :: fut)[k]? = some ((redoN ⟨s, us, rs⟩ k).st)) ∧
    StackOk (redoN ⟨s, us, rs⟩ k).st (redoN ⟨s, us, rs⟩ k).redos (fut.drop k) ∧
    StackOk (redoN ⟨s, us, rs⟩ k).st (redoN ⟨s, us, rs⟩ k).undos
      (((s :: fut).take k).reverse ++ past) := by
  intro k
  induction k with
  | zero =>
    intro s us rs past fut hu hr _
    exact ⟨by simp [redoN], hr, hu⟩
  | succ k ih =>
    intro s us rs past fut hu hr hk
    cases rs with
    | nil => exact absurd hk (by simp)
    | cons i is =>
      cases fut with
      | nil => exact absurd hr (by simp [StackOk])
      | cons p ps =>
        obtain ⟨hp, hrest⟩ := hr
        have hstep : redoN ⟨s, us, i :: is⟩ (k + 1) = redoN ⟨p, invertWs s i :: us, is⟩ k := by
          show redoN (redo ⟨s, us, i :: is⟩) k = _
          rw [show redo ⟨s, us, i :: is⟩
                = (⟨applyWs s i, invertWs s i :: us, is⟩ : RoomH) from rfl, hp]
        have hundo : StackOk p (invertWs s i :: us) (s :: past) := by
          refine ⟨?_, hu⟩
          rw [← hp]
          exact applyWs_invertWs i s
        obtain ⟨h1, h2, h3⟩ := ih p (invertWs s i :: us) is (s :: past) ps hundo hrest
          (Nat.succ_le_succ_iff.mp hk)
        rw [hstep]
        refine ⟨?_, h2, ?_⟩
        · rw [List.getElem?_cons_succ]
          exact h1
        · have htake : ((s :: p :: ps).take (k + 1)).reverse ++ past
              = ((p :: ps).take k).reverse ++ (s :: past) := by
            simp [List.take_succ_cons, List.reverse_cons, List.append_assoc]
          rw [htake]
          exact h3

theorem take_rev_hist : ∀ (bs : List (List Wr)) (s : St),
    ((runBatches s bs :: pastHist s bs).take bs.length).reverse
      = (statesList s bs).drop 1 := by
  intro bs
  induction bs with
  | nil => intro s; rfl
  | cons b bs ih =>
    intro s
    show ((runBatches (applyWs s b) bs
        :: (pastHist (applyWs s b) bs ++ [s])).take (bs.length + 1)).reverse = _
    rw [show (runBatches (applyWs s b) bs :: (pastHist (applyWs s b) bs ++ [s]))
          = (runBatches (applyWs s b) bs :: pastHist (applyWs s b) bs) ++ [s] from rfl]
    rw [show bs.length + 1
          = (runBatches (applyWs s b) bs :: pastHist (applyWs s b) bs).length from by
        simp [pastHist_length]]
    rw [List.take_left, rev_hist]
    rfl

/-- C3: starting from document `s0` and committing the batches `bs`, calling
`undo()` `k` times reaches exactly the intermediate document that held after
the first `length bs - k` batches, and after undoing everything, calling
`redo()` `j` times reaches exactly the document that held after the first `j`
batches — so `undo()` N times then `redo()` N times walks back and forward
through precisely the committed intermediate states.  `undo` pops the top undo
HistoryItem, applies its inverse writes as one atomic local batch and pushes
the redoing item onto the redo stack, `redo` symmetrically (definitions
`Hist.undo` / `Hist.redo` above). -/
theorem undo_redo_roundtrip (s0 : St) (bs : List (List Wr)) (k j : Nat)
    (hk : k ≤ bs.length) (hj : j ≤ bs.length) :
    (undoN (commits ⟨s0, [], []⟩ bs) k).st
        = runBatches s0 (bs.take (bs.length - k)) ∧
    (redoN (undoN (commits ⟨s0, [], []⟩ bs) bs.length) j).st
        = runBatches s0 (bs.take j) := by
  have hrev : runBatches s0 bs :: pastHist s0 bs = (statesList s0 bs).reverse := by
    rw [← rev_hist bs s0, List.reverse_reverse]
  have hidx : ∀ m : Nat, m ≤ bs.length →
      (runBatches s0 bs :: pastHist s0 bs)[m]?
        = some (runBatches s0 (bs.take (bs.length - m))) := by
    intro m hm
    rw [hrev, List.getElem?_reverse (by rw [statesList_length]; omega)]
    rw [statesList_length]
    rw [show bs.length + 1 - 1 - m = bs.length - m from by omega]
    exact statesList_getElem bs s0 (bs.length - m) (by omega)
  rcases hE : commits ⟨s0, [], []⟩ bs with ⟨sN, usN, rsN⟩
  have h0 := commits_inv bs ⟨s0, [], []⟩ [] (by show True; exact True.intro) rfl
  rw [hE] at h0
  obtain ⟨hst, hstack, hred⟩ := h0
  dsimp only at hst hstack hred
  rw [List.append_nil] at hstack
  subst hred
  subst hst
  have hlen : usN.length = bs.length :=
    (StackOk_length usN (pastHist s0 bs) _ hstack).trans (pastHist_length bs s0)
  have hempty : StackOk (runBatches s0 bs) ([] : List (List Wr)) [] := by
    show True
    exact True.intro
  obtain ⟨hu1, _, _⟩ := undoN_spec k (runBatches s0 bs) usN [] (pastHist s0 bs) []
    hstack hempty (by omega)
  obtain ⟨hf1, hf2, hf3⟩ := undoN_spec bs.length (runBatches s0 bs) usN []
    (pastHist s0 bs) [] hstack hempty (by omega)
  constructor
  · exact Option.some.inj ((hu1.symm).trans (hidx k hk))
  · rcases hE2 : undoN ⟨runBatches s0 bs, usN, []⟩ bs.length with ⟨sU, usU, rsU⟩
    rw [hE2] at hf1 hf2 hf3
    dsimp only at hf1 hf2 hf3
    have hsU : sU = s0 := by
      have h5 := (hf1.symm).trans (hidx bs.length (Nat.le_refl _))
      rw [Nat.sub_self, List.take_zero] at h5
      exact (Option.some.inj h5).trans rfl
    have hfut : StackOk sU rsU ((statesList s0 bs).drop 1) := by
      rw [← take_rev_hist]
      rw [List.append_nil] at hf3
      exact hf3
    have hrsU : rsU.length = bs.length := by
      rw [StackOk_length rsU ((statesList s0 bs).drop 1) sU hfut,
        List.length_drop, statesList_length]
      omega
    have hpastU : StackOk sU usU ([] : List St) := by
      rw [show ([] : List St) = (pastHist s0 bs).drop bs.length from by
            rw [← pastHist_length bs s0, List.drop_length]]
      exact hf2
    obtain ⟨hr1, _, _⟩ := redoN_spec j sU usU rsU [] ((statesList s0 bs).drop 1)
      hpastU hfut (by omega)
    rw [hsU] at hr1
    rw [hsU]
    have hr2 : (s0 :: (statesList s0 bs).drop 1)[j]?
        = some (runBatches s0 (bs.take j)) := by
      rw [statesList_head bs s0]
      exact statesList_getElem bs s0 j hj
    exact Option.some.inj ((hr1.symm).trans hr2)

/-- Initial document for the concrete history and batching scenarios. -/
def demoS0 : St := fun _ => none

/-- Two concrete committed batches. -/
def demoBs : List (List Wr) :=
  [[("a", some (Crdt.Value.numV 1))], [("b", some (Crdt.Value.numV 2))]]

/-- Witness for C3: after committing two concrete batches, one `undo` lands on
the state after batch 1, and after undoing both, one `redo` lands there again. -/
theorem undo_redo_roundtrip_witness :
    (undoN (commits ⟨demoS0, [], []⟩ demoBs) 1).st
        = runBatches demoS0 (demoBs.take (demoBs.length - 1)) ∧
    (redoN (undoN (commits ⟨demoS0, [], []⟩ demoBs) demoBs.length) 1).st
        = runBatches demoS0 (demoBs.take 1) :=
  undo_redo_roundtrip demoS0 demoBs 1 1 (by decide) (by decide)

/-- Modelled from the spec: `canUndo()` is an O(1) emptiness check of the undo
stack (spec section 4.3). -/
def canUndo (r : RoomH) : Bool := !r.undos.isEmpty

/-- Modelled from the spec: `canRedo()` is an O(1) emptiness check of the redo
stack (spec section 4.3). -/
def canRedo (r : RoomH) : Bool := !r.redos.isEmpty

/-- Modelled from the spec: after a history mutation the engine compares the
new subscribable `(canUndo, canRedo)` boolean pair against the previous one
and notifies `"history"` subscribers only when the pair changed
(spec section 4.3). -/
def histNotify (before after : RoomH) : Bool :=
  (canUndo before != canUndo after) || (canRedo before != canRedo after)

/-- C8: `canUndo()`/`canRedo()` report non-emptiness of the undo/redo stacks;
a `"history"` notification fires exactly when one of the stacks transitions
between empty and non-empty; in particular a commit pushing onto an already
non-empty undo stack (with nothing to clear from redo) does not notify, nor
does an `undo` that leaves the undo stack non-empty while the redo stack was
already non-empty. -/
theorem canUndo_canRedo_history_notify :
    (∀ r : RoomH, (canUndo r = true ↔ r.undos ≠ []) ∧
        (canRedo r = true ↔ r.redos ≠ [])) ∧
    (∀ before after : RoomH,
        histNotify before after = true ↔
          (before.undos.isEmpty ≠ after.undos.isEmpty ∨
           before.redos.isEmpty ≠ after.redos.isEmpty)) ∧
    (∀ (r : RoomH) (ws : List Wr), r.undos ≠ [] → r.redos = [] →
        histNotify r (commit r ws) = false) ∧
    (∀ (r : RoomH) (i : List Wr) (is : List (List Wr)),
        r.undos = i :: is → is ≠ [] → r.redos ≠ [] →
        histNotify r (undo r) = false) := by
  refine ⟨?_, ?_, ?_, ?_⟩
  · intro r
    constructor
    · cases hu : r.undos <;> simp [canUndo, hu]
    · cases hr : r.redos <;> simp [canRedo, hr]
  · intro b a
    cases h1 : b.undos.isEmpty <;> cases h2 : a.undos.isEmpty <;>
      cases h3 : b.redos.isEmpty <;> cases h4 : a.redos.isEmpty <;>
      simp [histNotify, canUndo, canRedo, h1, h2, h3, h4]
  · intro r ws hne hred
    cases hu : r.undos with
    | nil => exact absurd hu hne
    | cons x xs => simp [histNotify, canUndo, canRedo, commit, hu, hred]
  · intro r i is hu hisne hrne
    cases his : is with
    | nil => exact absurd his hisne
    | cons z zs =>
      cases hr : r.redos with
      | nil => exact absurd hr hrne
      | cons y ys =>
        subst his
        simp [histNotify, canUndo, canRedo, undo, hu, hr]

/-- A concrete room whose undo stack is non-empty and redo stack empty. -/
def demoRoomA : RoomH := ⟨demoS0, [[("a", some (Crdt.Value.numV 1))]], []⟩

/-- Witness for C8: committing onto the already non-empty undo stack of
`demoRoomA` (whose redo stack is empty) produces no `"history"` notification. -/
theorem canUndo_canRedo_history_notify_witness :
    histNotify demoRoomA (commit demoRoomA [("b", none)]) = false :=
  canUndo_canRedo_history_notify.2.2.1 demoRoomA [("b", none)] (by decide) rfl

end Hist

namespace Batch

/-- A partial presence update: the keys to overwrite, in the order they were
issued (later entries win). -/
abbrev Patch := List (String × Crdt.Value)

/-- Modelled from the spec: `updatePresence(partial)` merges the partial update
into the local presence snapshot by shallow key overwrite — each patch entry
overwrites exactly its own key, all other keys are untouched
(spec section 4.4). -/
def applyPatch (p : Hist.St) (u : Patch) : Hist.St :=
  u.foldl (fun acc kv => fun k => if k = kv.1 then some kv.2 else acc k) p

/-- The value the patch assigns to a key, if any: the last entry for that key
wins. -/
def lookupLast (u : Patch) (k : String) : Option Crdt.Value :=
  match u with
  | [] => none
  | kv :: rest =>
      match lookupLast rest k with
      | some v => some v
      | none => if k = kv.1 then some kv.2 else none

theorem applyPatch_lookup : ∀ (u : Patch) (p : Hist.St) (k : String),
    applyPatch p u k =
      match lookupLast u k with
      | some v => some v
      | none => p k := by
  intro u
  induction u with
  | nil => intro p k; rfl
  | cons kv rest ih =>
    intro p k
    show applyPatch (fun k2 => if k2 = kv.1 then some kv.2 else p k2) rest k = _
    rw [ih]
    cases hl : lookupLast rest k with
    | some v => simp [lookupLast, hl]
    | none =>
      simp only [lookupLast, hl]
      by_cases hk : k = kv.1 <;> simp [hk]

/-- C6: updating presence is a shallow merge — the resulting local presence has
exactly the keys of the partial update overwritten (the last write for a key
wins) and every key not mentioned in the update unchanged; in particular
updating with `{x: 0}` and then `{y: 0}` yields a presence containing both
`x` and `y`. -/
theorem updatePresence_shallow_merge :
    (∀ (p : Hist.St) (u : Patch) (k : String),
        applyPatch p u k =
          match lookupLast u k with
          | some v => some v
          | none => p k) ∧
    applyPatch (applyPatch Hist.demoS0 [("x", Crdt.Value.numV 0)])
        [("y", Crdt.Value.numV 0)] "x" = some (Crdt.Value.numV 0) ∧
    applyPatch (applyPatch Hist.demoS0 [("x", Crdt.Value.numV 0)])
        [("y", Crdt.Value.numV 0)] "y" = some (Crdt.Value.numV 0) :=
  ⟨fun p u k => applyPatch_lookup u p k, by decide, by decide⟩

/-- A topic whose subscribers are notified at a settle point: a Storage node
(identified here by its key) or the local `"my-presence"` topic. -/
inductive Topic where
  | node : String → Topic
  | myPresence : Topic
deriving DecidableEq, Repr

/-- Modelled from the spec: a Storage mutation or presence update issued by the
callback of `batch(fn)` (spec section 4.2). -/
inductive BCmd where
  | setKey : String → Crdt.Value → BCmd
  | delKey : String → BCmd
  | updPresence : Patch → BCmd
deriving DecidableEq, Repr

/-- One step of the user callback `fn`: either a buffered mutation or a thrown
exception that aborts the rest of the callback. -/
inductive BStep where
  | mut : BCmd → BStep
  | raiseE : String → BStep
deriving DecidableEq, Repr

/-- An outgoing message: the batched Storage operations plus the latest
presence delta, sent as a single unit (spec section 4.2). -/
structure Msg where
  ops : List Hist.Wr
  presenceDelta : Patch
deriving DecidableEq, Repr

/-- Modelled from the spec: the Room state affected by the Batch Controller —
Storage, Presence, the History stacks, and the outbox of sent messages
(spec sections 3 and 4.2). -/
structure BRoom where
  storage : Hist.St
  presence : Hist.St
  undos : List (List Hist.Wr)
  redos : List (List Hist.Wr)
  outbox : List Msg

/-- Modelled from the spec: running the callback buffers all Storage writes and
presence deltas in issuance order; a thrown exception aborts with the
exception, discarding the buffer (spec section 4.2). -/
def collect : List BStep → List Hist.Wr → Patch → Except String (List Hist.Wr × Patch)
  | [], ws, ps => .ok (ws, ps)
  | .mut (.setKey k v) :: rest, ws, ps => collect rest (ws ++ [(k, some v)]) ps
  | .mut (.delKey k) :: rest, ws, ps => collect rest (ws ++ [(k, none)]) ps
  | .mut (.updPresence u) :: rest, ws, ps => collect rest ws (ps ++ u)
  | .raiseE e :: _, _, _ => .error e

/-- The topics notified once the batch settles: each distinct written Storage
key once, plus `"my-presence"` if the batch carried a presence delta
(spec sections 4.1 and 4.2). -/
def notifications (ws : List Hist.Wr) (ps : Patch) : List Topic :=
  (ws.map Prod.fst).dedup.map Topic.node ++
    (if ps.isEmpty then [] else [Topic.myPresence])

/-- Modelled from the spec: committing the buffered batch — apply all Storage
writes locally in issuance order, merge the presence delta, record one
HistoryItem of inverse writes, clear redo, and append exactly one outgoing
message bundling everything (spec section 4.2). -/
def commitB (r : BRoom) (ws : List Hist.Wr) (ps : Patch) : BRoom :=
  { storage := Hist.applyWs r.storage ws
    presence := applyPatch r.presence ps
    undos := Hist.invertWs r.storage ws :: r.undos
    redos := []
    outbox := r.outbox ++ [⟨ws, ps⟩] }

/-- Modelled from the spec: `batch(fn)` — run the callback with buffering; on
normal completion commit the buffer and notify each changed topic once; on an
exception leave the room untouched, notify nobody, and propagate the exception
(spec section 4.2).  Returns the room, the notified topics, and the escaped
exception if any. -/
def batch (r : BRoom) (fn : List BStep) : BRoom × List Topic × Option String :=
  match collect fn [] [] with
  | .error e => (r, [], some e)
  | .ok (ws, ps) => (commitB r ws ps, notifications ws ps, none)

/-- C2: if the callback of `batch(fn)` throws, the batch is discarded — the
Storage, the Presence snapshot, both History stacks, and the set of sent
messages are exactly as before the call, no subscriber is notified, and the
exception propagates to the caller. -/
theorem batch_exception_atomic (r : BRoom) (fn : List BStep) (e : String)
    (hthrow : collect fn [] [] = .error e) :
    (batch r fn).1.storage = r.storage ∧
    (batch r fn).1.presence = r.presence ∧
    (batch r fn).1.undos = r.undos ∧
    (batch r fn).1.redos = r.redos ∧
    (batch r fn).1.outbox = r.outbox ∧
    (batch r fn).2.1 = [] ∧
    (batch r fn).2.2 = some e := by
  simp [batch, hthrow]

/-- An empty room for the concrete batching scenarios. -/
def demoBRoom : BRoom := ⟨Hist.demoS0, Hist.demoS0, [], [], []⟩

/-- A callback that performs a write and then throws. -/
def demoFnErr : List BStep :=
  [.mut (.setKey "a" (Crdt.Value.numV 1)), .raiseE "boom"]

/-- Witness for C2: a callback that writes and then throws leaves the empty
room exactly as it was and surfaces the exception. -/
theorem batch_exception_atomic_witness :
    (batch demoBRoom demoFnErr).1.storage = demoBRoom.storage ∧
    (batch demoBRoom demoFnErr).1.presence = demoBRoom.presence ∧
    (batch demoBRoom demoFnErr).1.undos = demoBRoom.undos ∧
    (batch demoBRoom demoFnErr).1.redos = demoBRoom.redos ∧
    (batch demoBRoom demoFnErr).1.outbox = demoBRoom.outbox ∧
    (batch demoBRoom demoFnErr).2.1 = [] ∧
    (batch demoBRoom demoFnErr).2.2 = some "boom" :=
  batch_exception_atomic demoBRoom demoFnErr "boom" rfl

/-- C5: if the callback of `batch(fn)` completes normally with buffered writes
`ws` and presence delta `ps`, then (a) all buffered Storage operations are
applied locally in issuance order, and the presence delta is merged, (b) the
outbox grows by exactly one message bundling all the operations plus the
presence delta, (c) exactly one HistoryItem covering the whole batch is
pushed, (d) no exception escapes, and (e) the topics notified after the batch
contain each distinct changed node exactly once (no duplicates), are exactly
the written keys, and include `"my-presence"` iff the batch carried a presence
delta. -/
theorem batch_commit_spec (r : BRoom) (fn : List BStep) (ws : List Hist.Wr)
    (ps : Patch) (hok : collect fn [] [] = .ok (ws, ps)) :
    (batch r fn).1.storage = Hist.applyWs r.storage ws ∧
    (batch r fn).1.presence = applyPatch r.presence ps ∧
    (batch r fn).1.outbox = r.outbox ++ [⟨ws, ps⟩] ∧
    (batch r fn).1.undos = Hist.invertWs r.storage ws :: r.undos ∧
    (batch r fn).2.2 = none ∧
    (batch r fn).2.1.Nodup ∧
    (∀ k : String, Topic.node k ∈ (batch r fn).2.1 ↔ k ∈ ws.map Prod.fst) ∧
    (Topic.myPresence ∈ (batch r fn).2.1 ↔ ps ≠ []) := by
  have hb : batch r fn = (commitB r ws ps, notifications ws ps, none) := by
    simp [batch, hok]
  rw [hb]
  refine ⟨rfl, rfl, rfl, rfl, rfl, ?_, ?_, ?_⟩
  · show (notifications ws ps).Nodup
    unfold notifications
    apply List.Nodup.append
    · exact ((ws.map Prod.fst).nodup_dedup).map (fun _ _ h => Topic.node.inj h)
    · cases hps : ps.isEmpty <;> simp
    · intro a ha hb2
      rw [List.mem_map] at ha
      obtain ⟨k2, _, hk2⟩ := ha
      cases hps : ps.isEmpty
      · rw [hps] at hb2
        simp at hb2
        rw [hb2] at hk2
        exact absurd hk2 (by simp)
      · rw [hps] at hb2
        simp at hb2
  · intro k
    show Topic.node k ∈ notifications ws ps ↔ _
    unfold notifications
    rw [List.mem_append]
    constructor
    · rintro (h | h)
      · rw [List.mem_map] at h
        obtain ⟨k2, hk2, he⟩ := h
        rw [← Topic.node.inj he]
        exact List.mem_dedup.mp hk2
      · cases hps : ps.isEmpty <;> rw [hps] at h <;> simp at h
    · intro h
      left
      rw [List.mem_map]
      exact ⟨k, List.mem_dedup.mpr h, rfl⟩
  · show Topic.myPresence ∈ notifications ws ps ↔ _
    unfold notifications
    cases ps with
    | nil => simp
    | cons q qs => simp

/-- A callback performing two Storage writes and one presence update. -/
def demoFn : List BStep :=
  [.mut (.setKey "a" (Crdt.Value.numV 1)),
   .mut (.updPresence [("cursor", Crdt.Value.numV 3)]),
   .mut (.setKey "b" (Crdt.Value.numV 2))]

/-- The writes buffered by `demoFn`, in issuance order. -/
def demoWs : List Hist.Wr :=
  [("a", some (Crdt.Value.numV 1)), ("b", some (Crdt.Value.numV 2))]

/-- The presence delta buffered by `demoFn`. -/
def demoPs : Patch := [("cursor", Crdt.Value.numV 3)]

/-- Witness for C5: the concrete callback commits atomically on the empty
room. -/
theorem batch_commit_spec_witness :
    (batch demoBRoom demoFn).1.storage = Hist.applyWs demoBRoom.storage demoWs ∧
    (batch demoBRoom demoFn).1.presence = applyPatch demoBRoom.presence demoPs ∧
    (batch demoBRoom demoFn).1.outbox = demoBRoom.outbox ++ [⟨demoWs, demoPs⟩] ∧
    (batch demoBRoom demoFn).1.undos
        = Hist.invertWs demoBRoom.storage demoWs :: demoBRoom.undos ∧
    (batch demoBRoom demoFn).2.2 = none ∧
    (batch demoBRoom demoFn).2.1.Nodup ∧
    (∀ k : String,
        Topic.node k ∈ (batch demoBRoom demoFn).2.1 ↔ k ∈ demoWs.map Prod.fst) ∧
    (Topic.myPresence ∈ (batch demoBRoom demoFn).2.1 ↔ demoPs ≠ []) :=
  batch_commit_spec demoBRoom demoFn demoWs demoPs rfl

end Batch

namespace ReactB

/-- Translated from factory.tsx: a Room handle as seen by the hooks; the
`history` field stands for the opaque `room.history` object returned by
`useHistory()` (factory.tsx lines 793-795). -/
structure RoomHandle where
  roomId : String
  history : Nat
deriving DecidableEq, Repr

/-- Translated from factory.tsx (useRoom, lines 426-432): read the nearest
RoomContext — `null` (here `none`) when no RoomProvider is above in the tree —
and throw synchronously instead of returning a null room. -/
def useRoom (ctx : Option RoomHandle) : Except String RoomHandle :=
  match ctx with
  | none => .error "RoomProvider is missing from the react tree"
  | some r => .ok r

/-- Translated from factory.tsx (useHistory, lines 793-795):
`return useRoom().history` — a hook built on `useRoom`, so the synchronous
error propagates. -/
def useHistoryHook (ctx : Option RoomHandle) : Except String Nat :=
  (useRoom ctx).map RoomHandle.history

/-- C9: evaluating `useRoom()` without a RoomProvider above it in the React
tree throws a synchronous error at the call site rather than returning a null
room — and hooks built on it, such as `useHistory()`, propagate that same
synchronous error; with a provider present the room is returned as-is. -/
theorem useRoom_throws_without_provider :
    useRoom none = .error "RoomProvider is missing from the react tree" ∧
    useHistoryHook none = .error "RoomProvider is missing from the react tree" ∧
    (∀ r : RoomHandle, useRoom (some r) = .ok r) :=
  ⟨rfl, rfl, fun _ => rfl⟩

/-- Translated from factory.tsx (useInitial, lines 28-30):
`React.useRef(value).current` — the ref cell is created from the first
render's value and never written again; the cell is threaded explicitly here
(`none` before the first render). -/
def useInitial {α : Type} (refCell : Option α) (value : α) : α × Option α :=
  match refCell with
  | none => (value, some value)
  | some v => (v, some v)

/-- Translated from factory.tsx: the RoomProvider props that feed
`client.enter` (lines 353-360); the deprecated default props are omitted. -/
structure ProviderProps where
  roomId : String
  initialPresence : Crdt.Value
  initialStorage : Crdt.Value
deriving DecidableEq, Repr

/-- One `client.enter` invocation with the arguments RoomProvider passes
(factory.tsx lines 405-414). -/
structure EnterCall where
  roomId : String
  initialPresence : Crdt.Value
  initialStorage : Crdt.Value
deriving DecidableEq, Repr

/-- Persistent state of a mounted RoomProvider: the ref cell backing
`useInitial` (factory.tsx lines 386-391) and the room id for which the enter
effect last ran — the effect's dependencies are the client, the room id and
the frozen object, and of these only the room id can change
(factory.tsx lines 405-419). -/
structure PState where
  frozenRef : Option (Crdt.Value × Crdt.Value)
  enteredRoom : Option String

/-- Translated from factory.tsx (RoomProvider, lines 384-419): one render —
freeze the initial presence/storage pair on the first render via `useInitial`,
then have the effect call `client.enter(roomId, frozen values)` on mount and
again whenever the room id changes. -/
def renderStep (st : PState) (p : ProviderProps) : PState × List EnterCall :=
  let fz := useInitial st.frozenRef (p.initialPresence, p.initialStorage)
  let calls := if st.enteredRoom = some p.roomId then []
               else [⟨p.roomId, fz.1.1, fz.1.2⟩]
  (⟨fz.2, some p.roomId⟩, calls)

/-- The `client.enter` calls made over a whole render sequence. -/
def renderAll (st : PState) : List ProviderProps → List EnterCall
  | [] => []
  | p :: ps => (renderStep st p).2 ++ renderAll (renderStep st p).1 ps

theorem renderAll_frozen (f : Crdt.Value × Crdt.Value) :
    ∀ (ps : List ProviderProps) (room : Option String),
      ∀ c ∈ renderAll ⟨some f, room⟩ ps,
        c.initialPresence = f.1 ∧ c.initialStorage = f.2 := by
  intro ps
  induction ps with
  | nil =>
    intro room c hc
    simp [renderAll] at hc
  | cons p ps ih =>
    intro room c hc
    simp only [renderAll, renderStep, useInitial] at hc
    rw [List.mem_append] at hc
    rcases hc with hc | hc
    · by_cases hr : room = some p.roomId
      · simp [hr] at hc
      · simp only [hr, if_false] at hc
        rw [List.mem_singleton] at hc
        exact ⟨by rw [hc], by rw [hc]⟩
    · exact ih (some p.roomId) c hc

/-- C10: over any render sequence of a mounted RoomProvider, every
`client.enter` call — the one on mount and every re-enter performed when the
room id changes — passes the `initialPresence` and `initialStorage` supplied
on the first render; changes to these props on later renders are ignored. -/
theorem roomProvider_freezes_initials (p0 : ProviderProps)
    (ps : List ProviderProps) :
    ∀ c ∈ renderAll ⟨none, none⟩ (p0 :: ps),
      c.initialPresence = p0.initialPresence ∧
      c.initialStorage = p0.initialStorage := by
  intro c hc
  simp only [renderAll, renderStep, useInitial] at hc
  rw [List.mem_append] at hc
  rcases hc with hc | hc
  · simp only [show (none : Option String) = some p0.roomId ↔ False from by simp,
      if_false] at hc
    rw [List.mem_singleton] at hc
    exact ⟨by rw [hc], by rw [hc]⟩
  · exact renderAll_frozen (p0.initialPresence, p0.initialStorage) ps
      (some p0.roomId) c hc

/-- Witness for C10: two renders — the second changes the room id (forcing a
re-enter) and supplies different initial props — yet the second enter call
still carries the first render's values. -/
theorem roomProvider_freezes_initials_witness :
    (⟨"room2", Crdt.Value.numV 1, Crdt.Value.numV 2⟩ : EnterCall).initialPresence
        = (⟨"room1", Crdt.Value.numV 1, Crdt.Value.numV 2⟩ : ProviderProps).initialPresence ∧
    (⟨"room2", Crdt.Value.numV 1, Crdt.Value.numV 2⟩ : EnterCall).initialStorage
        = (⟨"room1", Crdt.Value.numV 1, Crdt.Value.numV 2⟩ : ProviderProps).initialStorage :=
  roomProvider_freezes_initials
    ⟨"room1", Crdt.Value.numV 1, Crdt.Value.numV 2⟩
    [⟨"room2", Crdt.Value.numV 9, Crdt.Value.numV 8⟩]
    ⟨"room2", Crdt.Value.numV 1, Crdt.Value.numV 2⟩ (by decide)

end ReactB
